import Mathlib

/-!
Verification development for the leech2 change-tracking system.

The Rust sources are embedded shallowly:

* `HashMap<K, V>` values are modelled as association lists `List (K × V)`
  with first-match lookup; `insert` replaces any existing binding and
  `remove` deletes it, so the key-uniqueness of a `HashMap` is preserved
  by the operations.  Iteration order of a `HashMap` is unspecified in
  Rust; the list order stands in for one admissible order.
* `Vec<String>` row values are `List String`.
* fallible functions return `Except`.
* loops whose Rust form can index out of bounds (a panic) are modelled by
  structural recursion that stops at the shorter list; every theorem that
  relies on such a loop carries explicit length hypotheses putting it in
  the panic-free regime.
-/

set_option linter.unusedVariables false

abbrev Key := List String
abbrev Val := List String

/-- First-match lookup in an association list; models `HashMap::get`. -/
def alookup {κ α : Type} [DecidableEq κ] : List (κ × α) → κ → Option α
  | [], _ => none
  | p :: rest, k => if p.1 = k then some p.2 else alookup rest k

/-- Models `HashMap::contains_key`. -/
def acontains {κ α : Type} [DecidableEq κ] (m : List (κ × α)) (k : κ) : Bool :=
  (alookup m k).isSome

/-- Remove every binding of `k`; models the removal part of `HashMap::remove`. -/
def aerase {κ α : Type} [DecidableEq κ] : List (κ × α) → κ → List (κ × α)
  | [], _ => []
  | p :: rest, k => if p.1 = k then aerase rest k else p :: aerase rest k

/-- Models `HashMap::insert` (replaces an existing binding of the key). -/
def ainsert {κ α : Type} [DecidableEq κ] (m : List (κ × α)) (k : κ) (v : α) :
    List (κ × α) :=
  (k, v) :: aerase m k

/-- Apply `f` to the value bound to `k`; models mutation through
`HashMap::get_mut`. -/
def amodify {κ α : Type} [DecidableEq κ] (m : List (κ × α)) (k : κ) (f : α → α) :
    List (κ × α) :=
  m.map fun p => if p.1 = k then (p.1, f p.2) else p

/-- `src/delta.rs`: `Delta` — changes to a single table between two states. -/
structure Delta where
  table_name : String
  column_names : List String
  inserts : List (Key × Val)
  deletes : List (Key × Val)
  updates : List (Key × (Val × Val))
deriving DecidableEq, Repr

/-- Errors raised by `Delta::merge` (`bail!` sites in `src/delta.rs`). -/
inductive MergeErr where
  | rule5 (key : Key)
  | rule10 (key : Key)
  | rule11 (key : Key)
  | rule13 (key : Key)
  | rule14b (key : Key)
  | schemaMismatch (table : String)
deriving DecidableEq, Repr

/-- `src/delta.rs` `Delta::merge_insert`: rules 1, 5, 9a, 9b, 13. -/
def Delta.merge_insert (parent : Delta) (key : Key) (insert_value : Val) :
    Except MergeErr Delta :=
  if acontains parent.inserts key then
    .error (.rule5 key)
  else
    match alookup parent.deletes key with
    | some delete_value =>
      let parent := { parent with deletes := aerase parent.deletes key }
      if delete_value = insert_value then
        .ok parent
      else
        .ok { parent with updates := ainsert parent.updates key (delete_value, insert_value) }
    | none =>
      if acontains parent.updates key then
        .error (.rule13 key)
      else
        .ok { parent with inserts := ainsert parent.inserts key insert_value }

/-- `src/delta.rs` `Delta::merge_delete`: rules 2, 6, 10, 14a, 14b. -/
def Delta.merge_delete (parent : Delta) (key : Key) (delete_value : Val) :
    Except MergeErr Delta :=
  if acontains parent.inserts key then
    .ok { parent with inserts := aerase parent.inserts key }
  else if acontains parent.deletes key then
    .error (.rule10 key)
  else
    match alookup parent.updates key with
    | some (old_value, new_value) =>
      if delete_value = new_value then
        .ok { parent with
                updates := aerase parent.updates key
                deletes := ainsert parent.deletes key old_value }
      else
        .error (.rule14b key)
    | none =>
      .ok { parent with deletes := ainsert parent.deletes key delete_value }

/-- The per-column rewriting of the stored `old` tuple in rule 15
(`src/delta.rs` lines 365–374): position `i` becomes the child's old value
exactly when the child changed the position and the parent did not.
The Rust loop indexes the child tuples with the parent tuple's indices and
would panic on shorter child tuples; the recursion stops there instead, and
all theorems about it assume equal lengths. -/
def rule15Old : Val → Val → Val → Val → Val
  | po :: pos, pn :: pns, co :: cos, cn :: cns =>
    (if co ≠ cn ∧ po = pn then co else po) :: rule15Old pos pns cos cns
  | pos, _, _, _ => pos

/-- The per-column rewriting of the stored `new` tuple in rule 15:
position `i` becomes the child's new value exactly when the child changed
the position. Same length caveat as `rule15Old`. -/
def rule15New : Val → Val → Val → Val → Val
  | po :: pos, pn :: pns, co :: cos, cn :: cns =>
    (if co ≠ cn then cn else pn) :: rule15New pos pns cos cns
  | _, pns, _, _ => pns

/-- `src/delta.rs` `Delta::merge_update`: rules 3, 7, 11, 15. -/
def Delta.merge_update (parent : Delta) (key : Key) (old_value new_value : Val) :
    Except MergeErr Delta :=
  if acontains parent.inserts key then
    .ok { parent with inserts := amodify parent.inserts key (fun _ => new_value) }
  else if acontains parent.deletes key then
    .error (.rule11 key)
  else if acontains parent.updates key then
    .ok { parent with
            updates := amodify parent.updates key
              (fun p => (rule15Old p.1 p.2 old_value new_value,
                         rule15New p.1 p.2 old_value new_value)) }
  else
    .ok { parent with updates := ainsert parent.updates key (old_value, new_value) }

/-- Error-propagating left fold; models the `for` loops of `Delta::merge`
whose bodies return `Result`. -/
def mfold {α β ε : Type} (f : α → β → Except ε α) : α → List β → Except ε α
  | a, [] => .ok a
  | a, b :: rest =>
    match f a b with
    | .ok a' => mfold f a' rest
    | .error e => .error e

/-- `src/delta.rs` `Delta::merge`: schema check, then child inserts, deletes
and updates folded into the parent. -/
def Delta.merge (parent child : Delta) : Except MergeErr Delta :=
  if parent.column_names ≠ child.column_names then
    .error (.schemaMismatch parent.table_name)
  else
    match mfold (fun p e => Delta.merge_insert p e.1 e.2) parent child.inserts with
    | .error e => .error e
    | .ok p =>
      match mfold (fun p e => Delta.merge_delete p e.1 e.2) p child.deletes with
      | .error e => .error e
      | .ok p => mfold (fun p e => Delta.merge_update p e.1 e.2.1 e.2.2) p child.updates

/-- `src/table.rs`: a table snapshot — ordered field list (primary key
columns first) and records keyed by the primary-key tuple. -/
structure Table where
  fields : List String
  records : List (Key × Val)
deriving DecidableEq, Repr

/-- `src/state.rs` (domain form used by `src/delta.rs`): a snapshot of every
configured table, keyed by table name. -/
structure State where
  tables : List (String × Table)
deriving DecidableEq, Repr

/-- `src/delta.rs` `Delta::compute_table`: per-table inserts, deletes and
updates between an optional previous snapshot and the current one. -/
def Delta.compute_table (previous_table : Option Table) (current_table : Table) :
    List (Key × Val) × List (Key × Val) × List (Key × (Val × Val)) :=
  match previous_table with
  | none => (current_table.records, [], [])
  | some prev =>
    let deletes := prev.records.foldl
      (fun ds p => if acontains current_table.records p.1 then ds else ainsert ds p.1 p.2) []
    let iu := current_table.records.foldl
      (fun acc p =>
        match alookup prev.records p.1 with
        | none => (ainsert acc.1 p.1 p.2, acc.2)
        | some previous_value =>
          if previous_value ≠ p.2 then (acc.1, ainsert acc.2 p.1 (previous_value, p.2))
          else acc)
      ([], [])
    (iu.1, deletes, iu.2)

/-- `src/delta.rs` `Delta::compute`: one delta per changed table in the
current state, then one all-deletes delta per non-empty table that exists
only in the previous state. -/
def Delta.compute (previous_state : Option State) (current_state : State) : List Delta :=
  let part1 := current_state.tables.filterMap fun p =>
    let previous_table := previous_state.bind fun ps => alookup ps.tables p.1
    let idu := Delta.compute_table previous_table p.2
    if idu.1 = [] ∧ idu.2.1 = [] ∧ idu.2.2 = [] then none
    else some { table_name := p.1
                column_names := p.2.fields
                inserts := idu.1
                deletes := idu.2.1
                updates := idu.2.2 }
  let part2 := match previous_state with
    | none => []
    | some ps => ps.tables.filterMap fun p =>
      if p.2.records = [] then none
      else if acontains current_state.tables p.1 then none
      else some { table_name := p.1
                  column_names := p.2.fields
                  inserts := []
                  deletes := p.2.records
                  updates := [] }
  part1 ++ part2

/-- The documented Delta invariant "the PK sets of inserts, deletes and
updates are pairwise disjoint", as a decidable check over the entries. -/
def Delta.disjointB (d : Delta) : Bool :=
  d.inserts.all (fun p => (alookup d.deletes p.1).isNone && (alookup d.updates p.1).isNone)
    && d.deletes.all (fun p => (alookup d.updates p.1).isNone)

/-- The documented Delta invariant "for every update `(o, n)`: `o ≠ n`"
(for lists of equal arity this is exactly "some position differs"), as a
decidable check over the entries. -/
def Delta.updInvB (d : Delta) : Bool :=
  d.updates.all fun p => decide (p.2.1 ≠ p.2.2)

/-- `src/utils.rs` `GENESIS_HASH`: the 40-zero sentinel digest. -/
def GENESIS_HASH : String := "0000000000000000000000000000000000000000"

/-- Models Rust `str::starts_with` on valid UTF-8 via the character lists. -/
def strStartsWith (s pre : String) : Bool :=
  pre.toList.isPrefixOf s.toList

/-- Models Rust `str::trim` via the character list. -/
def strTrim (s : String) : String :=
  String.mk (((s.toList.dropWhile Char.isWhitespace).reverse.dropWhile
    Char.isWhitespace).reverse)

/-- Models Rust `char::is_ascii_hexdigit`. -/
def isHexDigitChar (c : Char) : Bool :=
  c.isDigit || (('a' ≤ c) && (c ≤ 'f')) || (('A' ≤ c) && (c ≤ 'F'))

/-- `src/head.rs` `head::load`: the HEAD blob's trimmed contents, or the
GENESIS sentinel when the blob is absent. -/
def headLoad (headFile : Option String) : String :=
  match headFile with
  | some data => strTrim data
  | none => GENESIS_HASH

/-- Wire `Entry` message (`proto/entry.proto`): key/value pair. -/
structure PEntry where
  key : Key
  value : Val
deriving DecidableEq, Repr

/-- Wire `Update` message (`proto/update.proto`): dense on blocks
(`changed_indices` empty), sparse on patches. -/
structure PUpdate where
  key : Key
  changed_indices : List Nat
  old_value : Val
  new_value : Val
deriving DecidableEq, Repr

/-- Wire `Delta` message (`proto/delta.proto`). -/
structure PDelta where
  table_name : String
  column_names : List String
  inserts : List PEntry
  deletes : List PEntry
  updates : List PUpdate
deriving DecidableEq, Repr

/-- `src/delta.rs` `expand_sparse`: expand sparse values back to a
full-length vector; positions not in `changed_indices` become empty
strings. (`List.set` drops an out-of-range write where Rust would panic;
unreachable for well-formed indices.) -/
def expandSparse (changed_indices : List Nat) (sparse_values : Val) (num_values : Nat) : Val :=
  if changed_indices = [] then sparse_values
  else (changed_indices.zip sparse_values).foldl
    (fun full p => full.set p.1 p.2) (List.replicate num_values "")

/-- `src/delta.rs` `proto::Delta::num_sub`: subsidiary column count derived
from the first available entry's key length. -/
def PDelta.numSub (d : PDelta) : Except String Nat :=
  let num_pk :=
    match d.inserts with
    | e :: _ => e.key.length
    | [] =>
      match d.deletes with
      | e :: _ => e.key.length
      | [] =>
        match d.updates with
        | u :: _ => u.key.length
        | [] => 0
  if d.column_names.length < num_pk then .error "column_names shorter than primary key"
  else .ok (d.column_names.length - num_pk)

/-- Errors of the block/patch layer (`anyhow` failures in `src/block.rs`
and `src/patch.rs`, by kind). `Corrupt` subsumes decode failures, which in
this decoded-level model can only arise from `num_sub`. -/
inductive PErr where
  | notFound (name : String)
  | corrupt (msg : String)
  | mergeConflict (e : MergeErr)
  | unknownRef (refText : String)
  | ambiguousRef (refText : String)
  | refNotInChain (refText : String)
  | noStateFallback
  | fuelExhausted
deriving DecidableEq, Repr

/-- `src/delta.rs` `TryFrom<proto::Delta> for Delta`: expand the sparse
updates and rebuild the keyed maps. -/
def PDelta.toDomain (d : PDelta) : Except PErr Delta :=
  match d.numSub with
  | .error e => .error (.corrupt e)
  | .ok num_sub =>
    .ok { table_name := d.table_name
          column_names := d.column_names
          inserts := d.inserts.map fun e => (e.key, e.value)
          deletes := d.deletes.map fun e => (e.key, e.value)
          updates := d.updates.map fun u =>
            (u.key, (expandSparse u.changed_indices u.old_value num_sub,
                     expandSparse u.changed_indices u.new_value num_sub)) }

/-- `src/delta.rs` `From<Delta> for proto::Delta`: dense updates with empty
`changed_indices`. -/
def Delta.toProto (d : Delta) : PDelta :=
  { table_name := d.table_name
    column_names := d.column_names
    inserts := d.inserts.map fun p => { key := p.1, value := p.2 }
    deletes := d.deletes.map fun p => { key := p.1, value := p.2 }
    updates := d.updates.map fun p =>
      { key := p.1, changed_indices := [], old_value := p.2.1, new_value := p.2.2 } }

/-- `src/block.rs`: a block — parent digest, creation time (seconds), and
a payload of per-table wire deltas. -/
structure Block where
  parent : String
  created : Option Int
  payload : List PDelta
deriving DecidableEq, Repr

/-- One step of `Block::merge`: find the parent delta with the child
delta's table name and merge into it, or append the child delta at the
end. -/
def mergePayloadOne : List PDelta → PDelta → Except PErr (List PDelta)
  | [], cd => .ok [cd]
  | pd :: rest, cd =>
    if pd.table_name = cd.table_name then
      match pd.toDomain with
      | .error e => .error e
      | .ok pdom =>
        match cd.toDomain with
        | .error e => .error e
        | .ok cdom =>
          match Delta.merge pdom cdom with
          | .error e => .error (.mergeConflict e)
          | .ok merged => .ok (merged.toProto :: rest)
    else
      match mergePayloadOne rest cd with
      | .error e => .error e
      | .ok rest' => .ok (pd :: rest')

/-- `src/block.rs` `Block::merge`: fold the child's deltas into the
parent's payload; the result keeps the parent's hash link and timestamp. -/
def Block.mergeB (self child : Block) : Except PErr Block :=
  match mfold mergePayloadOne self.payload child.payload with
  | .error e => .error e
  | .ok payload => .ok { parent := self.parent, created := self.created, payload := payload }

/-- `src/block.rs` `Block::load`, at the decoded level: look the hash up
among the stored blocks; absent file → `NotFound`. -/
def blockLoad (blocks : List (String × Block)) (hash : String) : Except PErr Block :=
  match alookup blocks hash with
  | some b => .ok b
  | none => .error (.notFound hash)

/-- The work directory as seen by `src/patch.rs` and `src/truncate.rs`:
stored blocks keyed by their 40-hex digest, the optional HEAD blob, the
optional persisted State, and the optional REPORTED blob. -/
structure Store where
  blocks : List (String × Block)
  headFile : Option String
  state : Option State
  reported : Option String
deriving DecidableEq, Repr

/-- The `zip(..).enumerate()` loop of `src/patch.rs` `try_consolidate`
(lines 131–148): walk old/new values in lockstep from index `i`, collecting
the positions that differ and the new values at those positions. -/
def sparsify : Nat → Val → Val → List Nat × Val
  | _, [], _ => ([], [])
  | _, _ :: _, [] => ([], [])
  | i, o :: os, n :: ns =>
    let rest := sparsify (i + 1) os ns
    if o ≠ n then (i :: rest.1, n :: rest.2) else rest

/-- Patch-side stripping of one update (`src/patch.rs` lines 131–147):
sparse-encode to `changed_indices` + `new_value` and clear `old_value`. -/
def stripUpdate (u : PUpdate) : PUpdate :=
  let sp := sparsify 0 u.old_value u.new_value
  { key := u.key, changed_indices := sp.1, old_value := [], new_value := sp.2 }

/-- Patch-side stripping of one delta (`src/patch.rs` lines 125–149):
deletes lose their subsidiary values, updates are sparse-encoded. -/
def stripDelta (d : PDelta) : PDelta :=
  { d with
      deletes := d.deletes.map fun e => { e with value := [] }
      updates := d.updates.map stripUpdate }

/-- The stripping loop of `try_consolidate` over the merged deltas. -/
def stripDeltas (ds : List PDelta) : List PDelta :=
  ds.map stripDelta

/-- `src/patch.rs` `resolve_hash_prefix`: the given ref text must be a
prefix of GENESIS or of exactly one 40-hex entry of the work directory
(modelled by the stored block hashes). -/
def resolveRef (blocks : List (String × Block)) (refText : String) : Except PErr String :=
  let ms :=
    (if strStartsWith GENESIS_HASH refText then [GENESIS_HASH] else [])
      ++ (blocks.map Prod.fst).filter
        (fun name => strStartsWith name refText && name.toList.length = 40
          && name.toList.all isHexDigitChar)
  match ms with
  | [] => .error (.unknownRef refText)
  | [single] => .ok single
  | _ => .error (.ambiguousRef refText)

/-- The `while` loop of `src/patch.rs` `consolidate`, with explicit fuel
(the Rust loop does not terminate on a cyclic parent chain; every theorem
supplies enough fuel for the store at hand). -/
def consolidateGo (blocks : List (String × Block)) (last_known : String) :
    Nat → String → Block → Nat → Except PErr (Nat × List PDelta)
  | 0, _, _, _ => .error .fuelExhausted
  | fuel + 1, current_hash, current_block, num_blocks =>
    if current_hash ≠ GENESIS_HASH ∧ ¬ strStartsWith current_hash last_known then
      match blockLoad blocks current_hash with
      | .error e => .error e
      | .ok block =>
        match Block.mergeB block current_block with
        | .error e => .error e
        | .ok merged => consolidateGo blocks last_known fuel block.parent merged (num_blocks + 1)
    else if strStartsWith current_hash last_known then
      .ok (num_blocks, current_block.payload)
    else
      .error (.refNotInChain last_known)

/-- `src/patch.rs` `consolidate`: walk tip→ancestor merging blocks
pairwise; fail when the walk ends at GENESIS without reaching a hash that
starts with `last_known`. -/
def consolidate (blocks : List (String × Block)) (head_block : Block)
    (last_known : String) (fuel : Nat) : Except PErr (Nat × List PDelta) :=
  consolidateGo blocks last_known fuel head_block.parent head_block 1

/-- Modelled from the spec: the generated protobuf encoders. The schema
files `proto/*.proto` compiled by `build.rs` are not under `src/`, and §6.2
of the spec fixes only a deterministic tag-length-value encoding, so the
encoded byte lengths of the two candidate payloads are abstract
parameters. -/
structure EncLen where
  stateLen : State → Nat
  deltasLen : List PDelta → Nat

/-- A patch payload: merged deltas or a full state snapshot (the proto
state conversion `From<State>` is content-preserving and elided). -/
inductive Payload where
  | deltas (items : List PDelta)
  | state (s : State)
deriving DecidableEq, Repr

/-- `src/patch.rs` `try_consolidate`: no work when HEAD already matches the
ref; otherwise consolidate, strip the deltas for the wire, and pick the
smaller of the full-state and deltas payloads by encoded length. -/
def tryConsolidate (enc : EncLen) (store : Store) (head_hash last_known : String)
    (fuel : Nat) : Except PErr (Option Int × Nat × Option Payload) :=
  match blockLoad store.blocks head_hash with
  | .error e => .error e
  | .ok block =>
    if strStartsWith head_hash last_known then
      .ok (block.created, 0, none)
    else
      match consolidate store.blocks block last_known fuel with
      | .error e => .error e
      | .ok (num_blocks, deltas) =>
        let deltas_payload := stripDeltas deltas
        let payload :=
          match store.state with
          | some s =>
            if enc.stateLen s < enc.deltasLen deltas_payload then Payload.state s
            else Payload.deltas deltas_payload
          | none => Payload.deltas deltas_payload
        .ok (block.created, num_blocks, some payload)

/-- `src/patch.rs`: the Patch message. -/
structure Patch where
  head_hash : String
  head_created : Option Int
  num_blocks : Nat
  payload : Option Payload
deriving DecidableEq, Repr

/-- `src/patch.rs` `Patch::create`: validate the ref, emit the Empty patch
at GENESIS head, otherwise consolidate; every consolidation failure falls
back to the full-state payload when a persisted State exists and surfaces
an error otherwise. -/
def Patch.create (enc : EncLen) (store : Store) (last_known : String) (fuel : Nat) :
    Except PErr Patch :=
  match resolveRef store.blocks last_known with
  | .error e => .error e
  | .ok _ =>
    let head_hash := headLoad store.headFile
    if head_hash = GENESIS_HASH then
      .ok { head_hash := head_hash, head_created := none, num_blocks := 0, payload := none }
    else
      match tryConsolidate enc store head_hash last_known fuel with
      | .ok (head_created, num_blocks, payload) =>
        .ok { head_hash := head_hash, head_created := head_created
              num_blocks := num_blocks, payload := payload }
      | .error _ =>
        match store.state with
        | some s =>
          .ok { head_hash := head_hash, head_created := none, num_blocks := 0
                payload := some (.state s) }
        | none => .error .noStateFallback

/-- The pure core of `src/block.rs` `Block::create`: the block that gets
encoded and stored — parent from `head::load`, the given creation time, and
the computed deltas as payload (hashing, storage and the truncator run are
I/O around this value). -/
def blockCreateCore (previous_state : Option State) (current_state : State)
    (headFile : Option String) (created : Option Int) : Block :=
  { parent := headLoad headFile
    created := created
    payload := (Delta.compute previous_state current_state).map Delta.toProto }

/-- `src/truncate.rs`: one entry of the loadable chain — hash and creation
time. -/
structure ChainEntry where
  hash : String
  created : Option Int
deriving DecidableEq, Repr

/-- The chain walk of `src/truncate.rs` `run` (lines 63–86): follow parent
links from HEAD, stopping at GENESIS or at the first block that fails to
load; fuel bounds the walk (the Rust loop does not terminate on a cyclic
chain). -/
def chainWalk (blocks : List (String × Block)) : Nat → String → List ChainEntry
  | 0, _ => []
  | fuel + 1, current_hash =>
    if current_hash = GENESIS_HASH then []
    else
      match alookup blocks current_hash with
      | none => []
      | some b => { hash := current_hash, created := b.created } :: chainWalk blocks fuel b.parent

/-- Models `Iterator::position` over the chain (`src/truncate.rs` line
109). -/
def findPos : List ChainEntry → String → Option Nat
  | [], _ => none
  | e :: rest, h => if e.hash = h then some 0 else (findPos rest h).map (· + 1)

/-- Models `Option::is_some_and`. -/
def optTest {α : Type} : Option α → (α → Bool) → Bool
  | some a, f => f a
  | none, _ => false

/-- The removal predicate of `src/truncate.rs` `run` (lines 130–132). -/
def shouldRemove (reportedPos maxBlocks : Option Nat) (cutoff : Option Int)
    (i : Nat) (e : ChainEntry) : Bool :=
  optTest reportedPos (fun pos => decide (pos < i))
    || optTest maxBlocks (fun m => decide (m ≤ i))
    || optTest cutoff (fun c => optTest e.created (fun t => decide (t < c)))

/-- The single removal pass of `src/truncate.rs` `run` (lines 107–139):
for each chain position its hash and whether the pass removes the block
(position 0, HEAD, is always kept). -/
def truncateDecisions (chain : List ChainEntry) (reported : Option String)
    (maxBlocks : Option Nat) (cutoff : Option Int) : List (String × Bool) :=
  let reportedPos :=
    match reported with
    | some h => findPos chain h
    | none => none
  chain.enum.map fun p =>
    (p.2.hash, if p.1 = 0 then false else shouldRemove reportedPos maxBlocks cutoff p.1 p.2)

/-! Concrete example values used to instantiate the theorems below. -/

/-- A trivial encoded-length assignment. -/
def enc0 : EncLen := { stateLen := fun _ => 0, deltasLen := fun _ => 0 }

/-- Encoded lengths making every full state smaller than any deltas list. -/
def encSmallState : EncLen := { stateLen := fun _ => 1, deltasLen := fun _ => 5 }

def parentW1 : Delta :=
  { table_name := "t", column_names := ["id", "a", "b"], inserts := [], deletes := []
    updates := [(["1"], (["a", "x"], ["b", "x"]))] }

def parentW2 : Delta :=
  { table_name := "t", column_names := ["id", "name"], inserts := []
    deletes := [(["2"], ["Bob"])], updates := [] }

def parentC3 : Delta :=
  { table_name := "t", column_names := [], inserts := [], deletes := []
    updates := [(["k"], (["a"], ["b"]))] }

def childC3 : Delta :=
  { table_name := "t", column_names := [], inserts := [], deletes := []
    updates := [(["k"], (["b"], ["a"]))] }

def resultC3 : Delta :=
  { table_name := "t", column_names := [], inserts := [], deletes := []
    updates := [(["k"], (["a"], ["a"]))] }

def parentW3 : Delta :=
  { table_name := "t", column_names := [], inserts := [], deletes := []
    updates := [(["p"], (["a"], ["b"]))] }

def childW3 : Delta :=
  { table_name := "t", column_names := [], inserts := [], deletes := [], updates := [] }

def pW4 : Delta :=
  { table_name := "t", column_names := ["id", "name"], inserts := [], deletes := []
    updates := [] }

def cW4 : Delta :=
  { table_name := "t", column_names := ["id", "name"]
    inserts := [(["3"], ["Charlie"])], deletes := [], updates := [] }

def rW4 : Delta :=
  { table_name := "t", column_names := ["id", "name"]
    inserts := [(["3"], ["Charlie"])], deletes := [], updates := [] }

def curW4 : State :=
  { tables := [("t", { fields := ["id", "name"], records := [(["3"], ["Charlie"])] })] }

def dW4 : Delta :=
  { table_name := "t", column_names := ["id", "name"]
    inserts := [(["3"], ["Charlie"])], deletes := [], updates := [] }

def stateC5 : State :=
  { tables := [("users", { fields := ["id", "name"], records := [(["1"], ["Alice"])] })] }

def hashB : String := "bbbbbbbbbbbbbbbbbbbbbbbbbbbbbbbbbbbbbbbb"

def hashOrph : String := "aa00000000000000000000000000000000000000"

def blockB : Block := { parent := GENESIS_HASH, created := some 5, payload := [] }

def blockOrph : Block := { parent := GENESIS_HASH, created := none, payload := [] }

def storeC5 : Store :=
  { blocks := [(hashB, blockB), (hashOrph, blockOrph)]
    headFile := some hashB, state := some stateC5, reported := none }

def updC6 : PUpdate :=
  { key := ["1"], changed_indices := [], old_value := ["a"], new_value := ["b"] }

def deltaC6 : PDelta :=
  { table_name := "users", column_names := ["id", "name"], inserts := [], deletes := []
    updates := [updC6] }

def strippedUpdC6 : PUpdate :=
  { key := ["1"], changed_indices := [0], old_value := [], new_value := ["b"] }

def strippedDeltaC6 : PDelta :=
  { table_name := "users", column_names := ["id", "name"], inserts := [], deletes := []
    updates := [strippedUpdC6] }

def hashC6 : String := "cccccccccccccccccccccccccccccccccccccccc"

def blockC6 : Block := { parent := GENESIS_HASH, created := some 7, payload := [deltaC6] }

def storeC6 : Store :=
  { blocks := [(hashC6, blockC6)], headFile := some hashC6, state := none, reported := none }

def hashC7 : String := "dddddddddddddddddddddddddddddddddddddddd"

def blockC7 : Block := { parent := GENESIS_HASH, created := some 9, payload := [deltaC6] }

def storeC7 : Store :=
  { blocks := [(hashC7, blockC7)], headFile := some hashC7, state := some stateC5
    reported := none }

def hashT1 : String := "1111111111111111111111111111111111111111"

def hashT2 : String := "2222222222222222222222222222222222222222"

def blocksC8 : List (String × Block) :=
  [(hashT1, { parent := hashT2, created := some 100, payload := [] }),
   (hashT2, { parent := GENESIS_HASH, created := some 50, payload := [] })]

def stateW9 : State :=
  { tables := [("t1", { fields := ["id"], records := [(["1"], ["x"])] }),
               ("t2", { fields := ["id"], records := [] })] }

def storeC10 : Store := { blocks := [], headFile := none, state := none, reported := none }

/-- Lookup-level form of the pairwise-disjointness invariant of a Delta. -/
def DisjProp (d : Delta) : Prop :=
  ∀ k : Key,
    ((alookup d.inserts k).isSome = true →
      alookup d.deletes k = none ∧ alookup d.updates k = none)
    ∧ ((alookup d.deletes k).isSome = true → alookup d.updates k = none)

/-! ### Association-map laws -/

theorem alookup_aerase {κ α : Type} [DecidableEq κ] (m : List (κ × α)) (k k' : κ) :
    alookup (aerase m k) k' = if k = k' then none else alookup m k' := by
  induction m with
  | nil => simp [aerase, alookup]
  | cons p rest ih =>
    simp only [aerase]
    by_cases h1 : p.1 = k
    · rw [if_pos h1, ih]
      by_cases h2 : k = k'
      · rw [if_pos h2, if_pos h2]
      · have h3 : ¬ p.1 = k' := by rw [h1]; exact h2
        rw [if_neg h2, if_neg h2]
        simp only [alookup, if_neg h3]
    · rw [if_neg h1]
      simp only [alookup]
      by_cases h2 : p.1 = k'
      · have h3 : ¬ k = k' := fun hk => h1 (h2.trans hk.symm)
        rw [if_pos h2, if_neg h3, if_pos h2]
      · rw [if_neg h2, if_neg h2, ih]

theorem alookup_ainsert {κ α : Type} [DecidableEq κ] (m : List (κ × α)) (k k' : κ) (v : α) :
    alookup (ainsert m k v) k' = if k = k' then some v else alookup m k' := by
  simp only [ainsert, alookup]
  by_cases h : k = k'
  · rw [if_pos h, if_pos h]
  · rw [if_neg h, if_neg h, alookup_aerase, if_neg h]

theorem alookup_amodify {κ α : Type} [DecidableEq κ] (m : List (κ × α)) (k k' : κ) (f : α → α) :
    alookup (amodify m k f) k' = if k = k' then (alookup m k).map f else alookup m k' := by
  induction m with
  | nil => simp [amodify, alookup]
  | cons p rest ih =>
    have hmod : amodify (p :: rest) k f =
        (if p.1 = k then (p.1, f p.2) else p) :: amodify rest k f := rfl
    rw [hmod]
    by_cases h1 : p.1 = k
    · rw [if_pos h1]
      simp only [alookup]
      by_cases h2 : k = k'
      · have h3 : p.1 = k' := h1.trans h2
        rw [if_pos h3, if_pos h2, if_pos h1]
        rfl
      · have h3 : ¬ p.1 = k' := by rw [h1]; exact h2
        rw [if_neg h3, if_neg h2, if_neg h3, ih, if_neg h2]
    · rw [if_neg h1]
      simp only [alookup]
      by_cases h2 : p.1 = k'
      · have h3 : ¬ k = k' := fun hk => h1 (h2.trans hk.symm)
        rw [if_pos h2, if_neg h3, if_pos h2]
      · rw [if_neg h2, if_neg h2, ih, if_neg h1]

theorem alookup_some_mem {κ α : Type} [DecidableEq κ] {m : List (κ × α)} {k : κ} {v : α}
    (h : alookup m k = some v) : (k, v) ∈ m := by
  induction m with
  | nil => simp [alookup] at h
  | cons p rest ih =>
    simp only [alookup] at h
    by_cases h1 : p.1 = k
    · rw [if_pos h1] at h
      injection h with h
      rw [← h1, ← h]
      exact List.mem_cons_self _ _
    · rw [if_neg h1] at h
      exact List.mem_cons_of_mem _ (ih h)

theorem mem_alookup_isSome {κ α : Type} [DecidableEq κ] {m : List (κ × α)} {k : κ} {v : α}
    (h : (k, v) ∈ m) : (alookup m k).isSome = true := by
  induction m with
  | nil => simp at h
  | cons p rest ih =>
    rcases List.mem_cons.mp h with h | h
    · rw [← h]
      simp [alookup]
    · simp only [alookup]
      by_cases h1 : p.1 = k
      · rw [if_pos h1]; rfl
      · rw [if_neg h1]; exact ih h

theorem alookup_of_mem_nodup {κ α : Type} [DecidableEq κ] {m : List (κ × α)}
    (hn : (m.map Prod.fst).Nodup) {k : κ} {v : α} (h : (k, v) ∈ m) :
    alookup m k = some v := by
  induction m with
  | nil => simp at h
  | cons p rest ih =>
    simp only [List.map_cons, List.nodup_cons] at hn
    rcases List.mem_cons.mp h with h | h
    · rw [← h]
      simp [alookup]
    · simp only [alookup]
      by_cases h1 : p.1 = k
      · exfalso
        apply hn.1
        rw [h1]
        exact List.mem_map.mpr ⟨(k, v), h, rfl⟩
      · rw [if_neg h1]
        exact ih hn.2 h

theorem mfold_ok_inv {α β ε : Type} {f : α → β → Except ε α} {P : α → Prop} :
    ∀ {l : List β}, (∀ a b a', b ∈ l → P a → f a b = .ok a' → P a') →
      ∀ {a a'}, P a → mfold f a l = .ok a' → P a'
  | [], _, a, a', hP, hr => by
    simp only [mfold] at hr
    injection hr with hr
    exact hr ▸ hP
  | b :: rest, hstep, a, a', hP, hr => by
    simp only [mfold] at hr
    cases hfb : f a b with
    | error e => rw [hfb] at hr; exact absurd hr (by simp)
    | ok a1 =>
      rw [hfb] at hr
      exact mfold_ok_inv (fun a b a' hb => hstep a b a' (List.mem_cons_of_mem _ hb))
        (hstep a b a1 (List.mem_cons_self _ _) hP hfb) hr

/-! ### Rule 15 per-position characterization -/

theorem rule15New_length : ∀ (po pn co cn : Val), pn.length = po.length →
    co.length = po.length → cn.length = po.length →
    (rule15New po pn co cn).length = po.length
  | [], [], [], [], _, _, _ => rfl
  | [], pn, co, cn, h1, h2, h3 => by
    cases pn with
    | nil => rfl
    | cons x xs => simp at h1
  | po0 :: pos, pn, co, cn, h1, h2, h3 => by
    cases pn with
    | nil => simp at h1
    | cons pn0 pns =>
      cases co with
      | nil => simp at h2
      | cons co0 cos =>
        cases cn with
        | nil => simp at h3
        | cons cn0 cns =>
          simp only [rule15New, List.length_cons] at *
          rw [rule15New_length pos pns cos cns (by omega) (by omega) (by omega)]

theorem rule15Old_length : ∀ (po pn co cn : Val), pn.length = po.length →
    co.length = po.length → cn.length = po.length →
    (rule15Old po pn co cn).length = po.length
  | [], _, _, _, _, _, _ => rfl
  | po0 :: pos, pn, co, cn, h1, h2, h3 => by
    cases pn with
    | nil => simp at h1
    | cons pn0 pns =>
      cases co with
      | nil => simp at h2
      | cons co0 cos =>
        cases cn with
        | nil => simp at h3
        | cons cn0 cns =>
          simp only [rule15Old, List.length_cons] at *
          rw [rule15Old_length pos pns cos cns (by omega) (by omega) (by omega)]

theorem rule15New_getD : ∀ (po pn co cn : Val), pn.length = po.length →
    co.length = po.length → cn.length = po.length → ∀ i, i < po.length →
    (rule15New po pn co cn).getD i "" =
      if co.getD i "" ≠ cn.getD i "" then cn.getD i "" else pn.getD i ""
  | [], _, _, _, _, _, _, i, hi => by simp at hi
  | po0 :: pos, pn, co, cn, h1, h2, h3, i, hi => by
    cases pn with
    | nil => simp at h1
    | cons pn0 pns =>
      cases co with
      | nil => simp at h2
      | cons co0 cos =>
        cases cn with
        | nil => simp at h3
        | cons cn0 cns =>
          cases i with
          | zero => simp [rule15New]
          | succ j =>
            simp only [rule15New, List.getD_cons_succ]
            simp only [List.length_cons] at h1 h2 h3 hi
            exact rule15New_getD pos pns cos cns (by omega) (by omega) (by omega) j (by omega)

theorem rule15Old_getD : ∀ (po pn co cn : Val), pn.length = po.length →
    co.length = po.length → cn.length = po.length → ∀ i, i < po.length →
    (rule15Old po pn co cn).getD i "" =
      if co.getD i "" ≠ cn.getD i "" ∧ po.getD i "" = pn.getD i ""
      then co.getD i "" else po.getD i ""
  | [], _, _, _, _, _, _, i, hi => by simp at hi
  | po0 :: pos, pn, co, cn, h1, h2, h3, i, hi => by
    cases pn with
    | nil => simp at h1
    | cons pn0 pns =>
      cases co with
      | nil => simp at h2
      | cons co0 cos =>
        cases cn with
        | nil => simp at h3
        | cons cn0 cns =>
          cases i with
          | zero => simp [rule15Old]
          | succ j =>
            simp only [rule15Old, List.getD_cons_succ]
            simp only [List.length_cons] at h1 h2 h3 hi
            exact rule15Old_getD pos pns cos cns (by omega) (by omega) (by omega) j (by omega)

/-- **C1.** Rule 15 of `Delta::merge`: when both the parent and the child
update the same key (and the key is in neither `inserts` nor `deletes`, per
the disjointness invariant, with all tuples of the table's subsidiary
arity), `merge_update` succeeds and leaves the key in `parent.updates`
with, per position `i`: `new[i] = n2[i]` when the child changed position
`i`, else `n1[i]`; and `old[i] = o2[i]` when the child changed position `i`
and the parent did not, else `o1[i]`; the key stays out of `inserts` and
`deletes`. -/
theorem c1_merge_update_rule15 (parent : Delta) (k : Key) (o1 n1 o2 n2 : Val)
    (hu : alookup parent.updates k = some (o1, n1))
    (hi : alookup parent.inserts k = none)
    (hd : alookup parent.deletes k = none)
    (l1 : n1.length = o1.length) (l2 : o2.length = o1.length) (l3 : n2.length = o1.length) :
    ∃ p' o' n',
      Delta.merge_update parent k o2 n2 = .ok p' ∧
      alookup p'.updates k = some (o', n') ∧
      alookup p'.inserts k = none ∧
      alookup p'.deletes k = none ∧
      o'.length = o1.length ∧ n'.length = o1.length ∧
      ∀ i, i < o1.length →
        (n'.getD i "" = if o2.getD i "" ≠ n2.getD i "" then n2.getD i "" else n1.getD i "") ∧
        (o'.getD i "" = if o2.getD i "" ≠ n2.getD i "" ∧ o1.getD i "" = n1.getD i ""
                        then o2.getD i "" else o1.getD i "") := by
  refine ⟨{ parent with
              updates := amodify parent.updates k
                (fun p => (rule15Old p.1 p.2 o2 n2, rule15New p.1 p.2 o2 n2)) },
          rule15Old o1 n1 o2 n2, rule15New o1 n1 o2 n2, ?_, ?_, hi, hd, ?_, ?_, ?_⟩
  · simp [Delta.merge_update, acontains, hi, hd, hu]
  · simp [alookup_amodify, hu]
  · exact rule15Old_length o1 n1 o2 n2 l1 l2 l3
  · exact rule15New_length o1 n1 o2 n2 l1 l2 l3
  · intro i hi2
    exact ⟨rule15New_getD o1 n1 o2 n2 l1 l2 l3 i hi2,
           rule15Old_getD o1 n1 o2 n2 l1 l2 l3 i hi2⟩

/-- Witness for C1: parent update `(a,x) → (b,x)` merged with child update
`(b,x) → (b,y)` at the same key. -/
theorem c1_witness :
    ∃ p' o' n',
      Delta.merge_update parentW1 ["1"] ["b", "x"] ["b", "y"] = .ok p' ∧
      alookup p'.updates ["1"] = some (o', n') ∧
      alookup p'.inserts ["1"] = none ∧
      alookup p'.deletes ["1"] = none ∧
      o'.length = 2 ∧ n'.length = 2 ∧
      ∀ i, i < 2 →
        (n'.getD i "" = if (["b", "x"] : Val).getD i "" ≠ (["b", "y"] : Val).getD i ""
                        then (["b", "y"] : Val).getD i "" else (["b", "x"] : Val).getD i "") ∧
        (o'.getD i "" = if (["b", "x"] : Val).getD i "" ≠ (["b", "y"] : Val).getD i ""
                          ∧ (["a", "x"] : Val).getD i "" = (["b", "x"] : Val).getD i ""
                        then (["b", "x"] : Val).getD i "" else (["a", "x"] : Val).getD i "") :=
  c1_merge_update_rule15 parentW1 ["1"] ["a", "x"] ["b", "x"] ["b", "x"] ["b", "y"]
    (by decide) (by decide) (by decide) (by decide) (by decide) (by decide)

/-- **C2.** Rules 9a/9b of `Delta::merge`: a parent delete `D(v1)` at key
`k` meeting a child insert `I(v2)` (key in neither `inserts` nor `updates`
of the parent, per the disjointness invariant) merges successfully; with
`v1 = v2` the key disappears from the parent delta entirely, otherwise it
is removed from `deletes` and recorded in `updates` as `U(v1, v2)`. -/
theorem c2_merge_insert_rule9 (parent : Delta) (k : Key) (v1 v2 : Val)
    (hd : alookup parent.deletes k = some v1)
    (hi : alookup parent.inserts k = none)
    (hu : alookup parent.updates k = none) :
    ∃ p',
      Delta.merge_insert parent k v2 = .ok p' ∧
      alookup p'.inserts k = none ∧
      alookup p'.deletes k = none ∧
      alookup p'.updates k = (if v1 = v2 then none else some (v1, v2)) := by
  by_cases hv : v1 = v2
  · refine ⟨{ parent with deletes := aerase parent.deletes k }, ?_, hi, ?_, ?_⟩
    · simp [Delta.merge_insert, acontains, hi, hd, hv]
    · simp [alookup_aerase]
    · simp [hv, hu]
  · refine ⟨{ parent with
                deletes := aerase parent.deletes k
                updates := ainsert parent.updates k (v1, v2) }, ?_, hi, ?_, ?_⟩
    · simp [Delta.merge_insert, acontains, hi, hd, hv]
    · simp [alookup_aerase]
    · simp [hv, alookup_ainsert]

/-- Witness for C2: parent delete `("Bob")` meeting child insert
`("Robert")` at key `["2"]` becomes the update `("Bob") → ("Robert")`. -/
theorem c2_witness :
    ∃ p',
      Delta.merge_insert parentW2 ["2"] ["Robert"] = .ok p' ∧
      alookup p'.inserts ["2"] = none ∧
      alookup p'.deletes ["2"] = none ∧
      alookup p'.updates ["2"]
        = (if (["Bob"] : Val) = ["Robert"] then none else some (["Bob"], ["Robert"])) :=
  c2_merge_insert_rule9 parentW2 ["2"] ["Bob"] ["Robert"] (by decide) (by decide) (by decide)

/-! ### Preservation of the update invariant away from doubly-updated keys -/

theorem merge_insert_updInv_pres (c p : Delta) (k : Key) (v : Val) (p' : Delta)
    (hP : ∀ k' o n, alookup p.updates k' = some (o, n) →
      alookup c.updates k' = none → o ≠ n)
    (h : Delta.merge_insert p k v = .ok p') :
    ∀ k' o n, alookup p'.updates k' = some (o, n) →
      alookup c.updates k' = none → o ≠ n := by
  by_cases hci : acontains p.inserts k
  · rw [Delta.merge_insert, if_pos hci] at h
    exact absurd h (by simp)
  · rw [Delta.merge_insert, if_neg hci] at h
    cases hdl : alookup p.deletes k with
    | some dv =>
      rw [hdl] at h
      simp only [] at h
      by_cases hv : dv = v
      · rw [if_pos hv] at h
        injection h with h
        subst h
        exact hP
      · rw [if_neg hv] at h
        injection h with h
        subst h
        intro k' o n hlk hc
        simp only [alookup_ainsert] at hlk
        by_cases hk : k = k'
        · rw [if_pos hk] at hlk
          injection hlk with hlk
          injection hlk with hlk1 hlk2
          rw [← hlk1, ← hlk2]
          exact hv
        · rw [if_neg hk] at hlk
          exact hP k' o n hlk hc
    | none =>
      rw [hdl] at h
      simp only [] at h
      by_cases hcu : acontains p.updates k
      · rw [if_pos hcu] at h
        exact absurd h (by simp)
      · rw [if_neg hcu] at h
        injection h with h
        subst h
        exact hP

theorem merge_delete_updInv_pres (c p : Delta) (k : Key) (v : Val) (p' : Delta)
    (hP : ∀ k' o n, alookup p.updates k' = some (o, n) →
      alookup c.updates k' = none → o ≠ n)
    (h : Delta.merge_delete p k v = .ok p') :
    ∀ k' o n, alookup p'.updates k' = some (o, n) →
      alookup c.updates k' = none → o ≠ n := by
  by_cases hci : acontains p.inserts k
  · rw [Delta.merge_delete, if_pos hci] at h
    injection h with h
    subst h
    exact hP
  · rw [Delta.merge_delete, if_neg hci] at h
    by_cases hcd : acontains p.deletes k
    · rw [if_pos hcd] at h
      exact absurd h (by simp)
    · rw [if_neg hcd] at h
      cases hul : alookup p.updates k with
      | some onv =>
        obtain ⟨ov1, nv1⟩ := onv
        rw [hul] at h
        simp only [] at h
        by_cases hv : v = nv1
        · rw [if_pos hv] at h
          injection h with h
          subst h
          intro k' o n hlk hc
          simp only [alookup_aerase] at hlk
          by_cases hk : k = k'
          · rw [if_pos hk] at hlk
            exact absurd hlk (by simp)
          · rw [if_neg hk] at hlk
            exact hP k' o n hlk hc
        · rw [if_neg hv] at h
          exact absurd h (by simp)
      | none =>
        rw [hul] at h
        simp only [] at h
        injection h with h
        subst h
        exact hP

theorem merge_update_updInv_pres (c p : Delta) (k : Key) (ov nv : Val) (p' : Delta)
    (hk : (alookup c.updates k).isSome = true)
    (hP : ∀ k' o n, alookup p.updates k' = some (o, n) →
      alookup c.updates k' = none → o ≠ n)
    (h : Delta.merge_update p k ov nv = .ok p') :
    ∀ k' o n, alookup p'.updates k' = some (o, n) →
      alookup c.updates k' = none → o ≠ n := by
  by_cases hci : acontains p.inserts k
  · rw [Delta.merge_update, if_pos hci] at h
    injection h with h
    subst h
    exact hP
  · rw [Delta.merge_update, if_neg hci] at h
    by_cases hcd : acontains p.deletes k
    · rw [if_pos hcd] at h
      exact absurd h (by simp)
    · rw [if_neg hcd] at h
      by_cases hcu : acontains p.updates k
      · rw [if_pos hcu] at h
        injection h with h
        subst h
        intro k' o n hlk hc
        simp only [alookup_amodify] at hlk
        by_cases hkk : k = k'
        · rw [← hkk] at hc
          rw [hc] at hk
          exact absurd hk (by simp)
        · rw [if_neg hkk] at hlk
          exact hP k' o n hlk hc
      · rw [if_neg hcu] at h
        injection h with h
        subst h
        intro k' o n hlk hc
        simp only [alookup_ainsert] at hlk
        by_cases hkk : k = k'
        · rw [← hkk] at hc
          rw [hc] at hk
          exact absurd hk (by simp)
        · rw [if_neg hkk] at hlk
          exact hP k' o n hlk hc

/-- Counterexample to **C3** as stated: both deltas satisfy the update
invariant, the merge succeeds, yet rule 15 applied to the child update
reverting the parent's change leaves an entry whose old and new values are
equal (no position differs). -/
theorem c3_counterexample :
    parentC3.updInvB = true ∧ childC3.updInvB = true ∧
    Delta.merge parentC3 childC3 = .ok resultC3 ∧
    alookup resultC3.updates ["k"] = some (["a"], ["a"]) ∧
    ¬ ∃ i : Nat, (["a"] : Val).get? i ≠ (["a"] : Val).get? i := by
  refine ⟨rfl, rfl, rfl, rfl, ?_⟩
  rintro ⟨i, hi⟩
  exact hi rfl

/-- **C3 (amended).** `Delta::merge` preserves the update invariant at
every key that the child does not itself update: if both input deltas
satisfy the invariant and the merge succeeds, every remaining entry
`(o, n)` of `parent.updates` whose key is absent from `child.updates`
still differs at some position. (At keys updated by both deltas, rule 15
can produce `o = n` — see the counterexample.) -/
theorem c3_merge_updInv (parent child r : Delta)
    (hp : parent.updInvB = true) (hc : child.updInvB = true)
    (hm : Delta.merge parent child = .ok r) :
    ∀ k o n, alookup r.updates k = some (o, n) → alookup child.updates k = none →
      ∃ i : Nat, o.get? i ≠ n.get? i := by
  have hP0 : ∀ k' o n, alookup parent.updates k' = some (o, n) →
      alookup child.updates k' = none → o ≠ n := by
    intro k' o n hlk _
    have hmem := alookup_some_mem hlk
    have := List.all_eq_true.mp hp _ hmem
    simpa using this
  rw [Delta.merge] at hm
  by_cases hcol : parent.column_names ≠ child.column_names
  · rw [if_pos hcol] at hm
    exact absurd hm (by simp)
  · rw [if_neg hcol] at hm
    cases h1 : mfold (fun p e => Delta.merge_insert p e.1 e.2) parent child.inserts with
    | error e => rw [h1] at hm; exact absurd hm (by simp)
    | ok p1 =>
      rw [h1] at hm
      simp only [] at hm
      have hP1 := mfold_ok_inv
        (fun a b a' _ hPa hab => merge_insert_updInv_pres child a b.1 b.2 a' hPa hab)
        hP0 h1
      cases h2 : mfold (fun p e => Delta.merge_delete p e.1 e.2) p1 child.deletes with
      | error e => rw [h2] at hm; exact absurd hm (by simp)
      | ok p2 =>
        rw [h2] at hm
        simp only [] at hm
        have hP2 := mfold_ok_inv
          (fun a b a' _ hPa hab => merge_delete_updInv_pres child a b.1 b.2 a' hPa hab)
          hP1 h2
        have hP3 := mfold_ok_inv
          (fun a b a' hb hPa hab => merge_update_updInv_pres child a b.1 b.2.1 b.2.2 a'
            (mem_alookup_isSome hb) hPa hab)
          hP2 hm
        intro k o n hlk hck
        have hne := hP3 k o n hlk hck
        by_contra hall
        push_neg at hall
        exact hne (List.ext_get? hall)

/-- Witness for the amended C3: a parent update surviving a merge with an
empty child still differs at position 0. -/
theorem c3_witness :
    ∃ i : Nat, (["a"] : Val).get? i ≠ (["b"] : Val).get? i :=
  c3_merge_updInv parentW3 childW3 parentW3 rfl rfl rfl ["p"] ["a"] ["b"] rfl rfl

/-! ### Disjointness preservation -/

theorem disjointB_iff (d : Delta) : d.disjointB = true ↔ DisjProp d := by
  constructor
  · intro h k
    rw [Delta.disjointB, Bool.and_eq_true] at h
    obtain ⟨h1, h2⟩ := h
    constructor
    · intro hins
      cases hlk : alookup d.inserts k with
      | none => rw [hlk] at hins; exact absurd hins (by simp)
      | some v =>
        have hmem := alookup_some_mem hlk
        have := List.all_eq_true.mp h1 _ hmem
        rw [Bool.and_eq_true] at this
        obtain ⟨ha, hb⟩ := this
        exact ⟨Option.isNone_iff_eq_none.mp ha, Option.isNone_iff_eq_none.mp hb⟩
    · intro hdel
      cases hlk : alookup d.deletes k with
      | none => rw [hlk] at hdel; exact absurd hdel (by simp)
      | some v =>
        have hmem := alookup_some_mem hlk
        have := List.all_eq_true.mp h2 _ hmem
        exact Option.isNone_iff_eq_none.mp this
  · intro h
    rw [Delta.disjointB, Bool.and_eq_true]
    constructor
    · apply List.all_eq_true.mpr
      intro p hp
      have hins : (alookup d.inserts p.1).isSome = true := mem_alookup_isSome (by
        have : p = (p.1, p.2) := rfl
        rw [← this]; exact hp)
      obtain ⟨hd1, hu1⟩ := (h p.1).1 hins
      rw [hd1, hu1]
      rfl
    · apply List.all_eq_true.mpr
      intro p hp
      have hdel : (alookup d.deletes p.1).isSome = true := mem_alookup_isSome (by
        have : p = (p.1, p.2) := rfl
        rw [← this]; exact hp)
      rw [(h p.1).2 hdel]
      rfl

theorem merge_insert_disj (p : Delta) (k : Key) (v : Val) (p' : Delta)
    (hD : DisjProp p) (h : Delta.merge_insert p k v = .ok p') : DisjProp p' := by
  by_cases hci : acontains p.inserts k
  · rw [Delta.merge_insert, if_pos hci] at h
    exact absurd h (by simp)
  · rw [Delta.merge_insert, if_neg hci] at h
    cases hdl : alookup p.deletes k with
    | some dv =>
      rw [hdl] at h
      simp only [] at h
      by_cases hv : dv = v
      · rw [if_pos hv] at h
        injection h with h
        subst h
        intro k'
        obtain ⟨hIk, hDk⟩ := hD k'
        dsimp only
        constructor
        · intro hins
          obtain ⟨hd1, hu1⟩ := hIk hins
          refine ⟨?_, hu1⟩
          rw [alookup_aerase]
          split_ifs with hk
          · rfl
          · exact hd1
        · intro hdel
          rw [alookup_aerase] at hdel
          split_ifs at hdel with hk
          · exact absurd hdel (by simp)
          · exact hDk hdel
      · rw [if_neg hv] at h
        injection h with h
        subst h
        have hUk : alookup p.updates k = none := by
          refine (hD k).2 ?_
          rw [hdl]; rfl
        intro k'
        obtain ⟨hIk, hDk⟩ := hD k'
        dsimp only
        constructor
        · intro hins
          have hkk : ¬ k = k' := by
            intro hk
            rw [← hk] at hins
            exact hci hins
          obtain ⟨hd1, hu1⟩ := hIk hins
          constructor
          · rw [alookup_aerase, if_neg hkk]
            exact hd1
          · rw [alookup_ainsert, if_neg hkk]
            exact hu1
        · intro hdel
          rw [alookup_aerase] at hdel
          split_ifs at hdel with hk
          · exact absurd hdel (by simp)
          · rw [alookup_ainsert, if_neg hk]
            exact hDk hdel
    | none =>
      rw [hdl] at h
      simp only [] at h
      by_cases hcu : acontains p.updates k
      · rw [if_pos hcu] at h
        exact absurd h (by simp)
      · rw [if_neg hcu] at h
        injection h with h
        subst h
        intro k'
        obtain ⟨hIk, hDk⟩ := hD k'
        dsimp only
        constructor
        · intro hins
          rw [alookup_ainsert] at hins
          split_ifs at hins with hk
          · rw [← hk]
            refine ⟨hdl, ?_⟩
            cases hpu : alookup p.updates k with
            | none => rfl
            | some _ =>
              exact absurd (show acontains p.updates k = true by
                show (alookup p.updates k).isSome = true
                rw [hpu]
                rfl) hcu
          · exact hIk hins
        · exact hDk

theorem merge_delete_disj (p : Delta) (k : Key) (v : Val) (p' : Delta)
    (hD : DisjProp p) (h : Delta.merge_delete p k v = .ok p') : DisjProp p' := by
  by_cases hci : acontains p.inserts k
  · rw [Delta.merge_delete, if_pos hci] at h
    injection h with h
    subst h
    intro k'
    obtain ⟨hIk, hDk⟩ := hD k'
    dsimp only
    constructor
    · intro hins
      rw [alookup_aerase] at hins
      split_ifs at hins with hk
      · exact absurd hins (by simp)
      · exact hIk hins
    · exact hDk
  · rw [Delta.merge_delete, if_neg hci] at h
    by_cases hcd : acontains p.deletes k
    · rw [if_pos hcd] at h
      exact absurd h (by simp)
    · rw [if_neg hcd] at h
      cases hul : alookup p.updates k with
      | some onv =>
        obtain ⟨ov1, nv1⟩ := onv
        rw [hul] at h
        simp only [] at h
        by_cases hv : v = nv1
        · rw [if_pos hv] at h
          injection h with h
          subst h
          intro k'
          obtain ⟨hIk, hDk⟩ := hD k'
          dsimp only
          constructor
          · intro hins
            have hkk : ¬ k = k' := by
              intro hk
              rw [← hk] at hins
              exact hci hins
            obtain ⟨hd1, hu1⟩ := hIk hins
            constructor
            · rw [alookup_ainsert, if_neg hkk]
              exact hd1
            · rw [alookup_aerase, if_neg hkk]
              exact hu1
          · intro hdel
            rw [alookup_ainsert] at hdel
            rw [alookup_aerase]
            split_ifs at hdel with hk
            · rw [if_pos hk]
            · rw [if_neg hk]
              exact hDk hdel
        · rw [if_neg hv] at h
          exact absurd h (by simp)
      | none =>
        rw [hul] at h
        simp only [] at h
        injection h with h
        subst h
        intro k'
        obtain ⟨hIk, hDk⟩ := hD k'
        dsimp only
        constructor
        · intro hins
          have hkk : ¬ k = k' := by
            intro hk
            rw [← hk] at hins
            exact hci hins
          obtain ⟨hd1, hu1⟩ := hIk hins
          constructor
          · rw [alookup_ainsert, if_neg hkk]
            exact hd1
          · exact hu1
        · intro hdel
          rw [alookup_ainsert] at hdel
          split_ifs at hdel with hk
          · rw [← hk]
            exact hul
          · exact hDk hdel

theorem merge_update_disj (p : Delta) (k : Key) (ov nv : Val) (p' : Delta)
    (hD : DisjProp p) (h : Delta.merge_update p k ov nv = .ok p') : DisjProp p' := by
  by_cases hci : acontains p.inserts k
  · rw [Delta.merge_update, if_pos hci] at h
    injection h with h
    subst h
    intro k'
    obtain ⟨hIk, hDk⟩ := hD k'
    dsimp only
    constructor
    · intro hins
      rw [alookup_amodify] at hins
      split_ifs at hins with hk
      · refine hIk ?_
        rw [← hk]
        cases hpi : alookup p.inserts k with
        | none => rw [hpi] at hins; exact absurd hins (by simp)
        | some _ => rfl
      · exact hIk hins
    · exact hDk
  · rw [Delta.merge_update, if_neg hci] at h
    by_cases hcd : acontains p.deletes k
    · rw [if_pos hcd] at h
      exact absurd h (by simp)
    · rw [if_neg hcd] at h
      by_cases hcu : acontains p.updates k
      · rw [if_pos hcu] at h
        injection h with h
        subst h
        intro k'
        obtain ⟨hIk, hDk⟩ := hD k'
        dsimp only
        constructor
        · intro hins
          obtain ⟨hd1, hu1⟩ := hIk hins
          refine ⟨hd1, ?_⟩
          rw [alookup_amodify]
          split_ifs with hk
          · rw [hk, hu1]
            rfl
          · exact hu1
        · intro hdel
          have hu1 := hDk hdel
          rw [alookup_amodify]
          split_ifs with hk
          · rw [hk, hu1]
            rfl
          · exact hu1
      · rw [if_neg hcu] at h
        injection h with h
        subst h
        intro k'
        obtain ⟨hIk, hDk⟩ := hD k'
        dsimp only
        constructor
        · intro hins
          have hkk : ¬ k = k' := by
            intro hk
            rw [← hk] at hins
            exact hci hins
          obtain ⟨hd1, hu1⟩ := hIk hins
          refine ⟨hd1, ?_⟩
          rw [alookup_ainsert, if_neg hkk]
          exact hu1
        · intro hdel
          have hkk : ¬ k = k' := by
            intro hk
            rw [← hk] at hdel
            exact hcd hdel
          have hu1 := hDk hdel
          rw [alookup_ainsert, if_neg hkk]
          exact hu1

theorem merge_disj_pres (p c r : Delta) (hD : DisjProp p)
    (hm : Delta.merge p c = .ok r) : DisjProp r := by
  rw [Delta.merge] at hm
  by_cases hcol : p.column_names ≠ c.column_names
  · rw [if_pos hcol] at hm
    exact absurd hm (by simp)
  · rw [if_neg hcol] at hm
    cases h1 : mfold (fun p e => Delta.merge_insert p e.1 e.2) p c.inserts with
    | error e => rw [h1] at hm; exact absurd hm (by simp)
    | ok p1 =>
      rw [h1] at hm
      simp only [] at hm
      have hD1 := mfold_ok_inv
        (fun a b a' _ hPa hab => merge_insert_disj a b.1 b.2 a' hPa hab) hD h1
      cases h2 : mfold (fun p e => Delta.merge_delete p e.1 e.2) p1 c.deletes with
      | error e => rw [h2] at hm; exact absurd hm (by simp)
      | ok p2 =>
        rw [h2] at hm
        simp only [] at hm
        have hD2 := mfold_ok_inv
          (fun a b a' _ hPa hab => merge_delete_disj a b.1 b.2 a' hPa hab) hD1 h2
        exact mfold_ok_inv
          (fun a b a' _ hPa hab => merge_update_disj a b.1 b.2.1 b.2.2 a' hPa hab) hD2 hm

theorem foldl_inv {γ β : Type} {P : γ → Prop} (f : γ → β → γ) :
    ∀ (l : List β), (∀ acc b, b ∈ l → P acc → P (f acc b)) →
      ∀ acc, P acc → P (l.foldl f acc)
  | [], _, acc, h => h
  | b :: rest, hstep, acc, h => by
    simp only [List.foldl_cons]
    exact foldl_inv f rest (fun a b' hb hPa => hstep a b' (List.mem_cons_of_mem _ hb) hPa)
      (f acc b) (hstep acc b (List.mem_cons_self _ _) h)

theorem compute_deletes_char (prev ct : Table) :
    ∀ k, (alookup (prev.records.foldl
        (fun ds p => if acontains ct.records p.1 then ds else ainsert ds p.1 p.2) []) k).isSome
          = true →
      acontains ct.records k = false := by
  have := foldl_inv
    (P := fun ds => ∀ k, (alookup ds k).isSome = true → acontains ct.records k = false)
    (fun ds p => if acontains ct.records p.1 then ds else ainsert ds p.1 p.2)
    prev.records
    (by
      intro acc b hb hP k hk
      dsimp only at hk
      split_ifs at hk with hc
      · exact hP k hk
      · rw [alookup_ainsert] at hk
        split_ifs at hk with hbk
        · rw [← hbk]
          simp only [Bool.not_eq_true] at hc
          exact hc
        · exact hP k hk)
    []
    (by intro k hk; simp [alookup] at hk)
  exact this

theorem compute_iu_char (prev ct : Table) :
    let iu := ct.records.foldl
      (fun acc p =>
        match alookup prev.records p.1 with
        | none => (ainsert acc.1 p.1 p.2, acc.2)
        | some previous_value =>
          if previous_value ≠ p.2 then (acc.1, ainsert acc.2 p.1 (previous_value, p.2))
          else acc)
      ([], [])
    (∀ k, (alookup iu.1 k).isSome = true →
      alookup prev.records k = none ∧ acontains ct.records k = true)
    ∧ (∀ k, (alookup iu.2 k).isSome = true →
      (alookup prev.records k).isSome = true ∧ acontains ct.records k = true) := by
  show
    (∀ k, (alookup (ct.records.foldl
      (fun acc p =>
        match alookup prev.records p.1 with
        | none => (ainsert acc.1 p.1 p.2, acc.2)
        | some previous_value =>
          if previous_value ≠ p.2 then (acc.1, ainsert acc.2 p.1 (previous_value, p.2))
          else acc)
      ([], [])).1 k).isSome = true →
      alookup prev.records k = none ∧ acontains ct.records k = true)
    ∧ (∀ k, (alookup (ct.records.foldl
      (fun acc p =>
        match alookup prev.records p.1 with
        | none => (ainsert acc.1 p.1 p.2, acc.2)
        | some previous_value =>
          if previous_value ≠ p.2 then (acc.1, ainsert acc.2 p.1 (previous_value, p.2))
          else acc)
      ([], [])).2 k).isSome = true →
      (alookup prev.records k).isSome = true ∧ acontains ct.records k = true)
  refine foldl_inv
    (P := fun acc =>
      (∀ k, (alookup acc.1 k).isSome = true →
        alookup prev.records k = none ∧ acontains ct.records k = true)
      ∧ (∀ k, (alookup acc.2 k).isSome = true →
        (alookup prev.records k).isSome = true ∧ acontains ct.records k = true))
    (fun acc p =>
      match alookup prev.records p.1 with
      | none => (ainsert acc.1 p.1 p.2, acc.2)
      | some previous_value =>
        if previous_value ≠ p.2 then (acc.1, ainsert acc.2 p.1 (previous_value, p.2))
        else acc)
    ct.records ?_ ([], []) ?_
  · intro acc b hb hP
    dsimp only
    have hbc : acontains ct.records b.1 = true := by
      refine mem_alookup_isSome (v := b.2) ?_
      exact hb
    cases hlp : alookup prev.records b.1 with
    | none =>
      dsimp only
      refine ⟨?_, hP.2⟩
      intro k hk
      simp only [alookup_ainsert] at hk
      split_ifs at hk with hbk
      · rw [← hbk]
        exact ⟨hlp, hbc⟩
      · exact hP.1 k hk
    | some pv =>
      dsimp only
      by_cases hne : pv ≠ b.2
      · rw [if_pos hne]
        refine ⟨hP.1, ?_⟩
        intro k hk
        simp only [alookup_ainsert] at hk
        split_ifs at hk with hbk
        · rw [← hbk, hlp]
          exact ⟨rfl, hbc⟩
        · exact hP.2 k hk
      · rw [if_neg hne]
        exact hP
  · constructor <;> (intro k hk; simp [alookup] at hk)

theorem compute_table_disj (pt : Option Table) (ct : Table) (tn : String)
    (cols : List String) :
    DisjProp { table_name := tn, column_names := cols
               inserts := (Delta.compute_table pt ct).1
               deletes := (Delta.compute_table pt ct).2.1
               updates := (Delta.compute_table pt ct).2.2 } := by
  cases pt with
  | none =>
    intro k
    simp only [Delta.compute_table]
    constructor
    · intro _
      exact ⟨rfl, rfl⟩
    · intro hk
      simp [alookup] at hk
  | some prev =>
    have hD := compute_deletes_char prev ct
    have hIU := compute_iu_char prev ct
    intro k
    simp only [Delta.compute_table]
    constructor
    · intro hins
      obtain ⟨hprev, hct⟩ := hIU.1 k hins
      constructor
      · cases hld : alookup (prev.records.foldl
            (fun ds p => if acontains ct.records p.1 then ds else ainsert ds p.1 p.2) []) k with
        | none => rfl
        | some v =>
          have := hD k (by rw [hld]; rfl)
          rw [hct] at this
          exact absurd this (by simp)
      · cases hlu : alookup (ct.records.foldl
            (fun acc p =>
              match alookup prev.records p.1 with
              | none => (ainsert acc.1 p.1 p.2, acc.2)
              | some previous_value =>
                if previous_value ≠ p.2 then (acc.1, ainsert acc.2 p.1 (previous_value, p.2))
                else acc)
            ([], [])).2 k with
        | none => rfl
        | some v =>
          have := (hIU.2 k (by rw [hlu]; rfl)).1
          rw [hprev] at this
          exact absurd this (by simp)
    · intro hdel
      have hct := hD k hdel
      cases hlu : alookup (ct.records.foldl
          (fun acc p =>
            match alookup prev.records p.1 with
            | none => (ainsert acc.1 p.1 p.2, acc.2)
            | some previous_value =>
              if previous_value ≠ p.2 then (acc.1, ainsert acc.2 p.1 (previous_value, p.2))
              else acc)
          ([], [])).2 k with
      | none => rfl
      | some v =>
        have := (hIU.2 k (by rw [hlu]; rfl)).2
        rw [hct] at this
        exact absurd this (by simp)

theorem compute_disj_all (prev : Option State) (cur : State) :
    ∀ d, d ∈ Delta.compute prev cur → d.disjointB = true := by
  intro d hd
  rw [disjointB_iff]
  simp only [Delta.compute] at hd
  rcases List.mem_append.mp hd with h | h
  · obtain ⟨p, hp, heq⟩ := List.mem_filterMap.mp h
    split_ifs at heq with hcond
    injection heq with heq
    rw [← heq]
    exact compute_table_disj _ _ _ _
  · cases prev with
    | none => simp at h
    | some ps =>
      obtain ⟨p, hp, heq⟩ := List.mem_filterMap.mp h
      split_ifs at heq with hc1 hc2
      injection heq with heq
      rw [← heq]
      intro k
      constructor
      · intro hk
        simp [alookup] at hk
      · intro _
        rfl

/-- **C4.** Disjointness invariant: every delta returned by
`Delta::compute` has pairwise-disjoint key sets across inserts, deletes and
updates; and for parent and child deltas with pairwise-disjoint key sets a
successful `Delta::merge` leaves the parent's key sets pairwise disjoint. -/
theorem c4_disjointness :
    (∀ (prev : Option State) (cur : State) (d : Delta),
      d ∈ Delta.compute prev cur → d.disjointB = true)
    ∧ (∀ (p c r : Delta), p.disjointB = true → c.disjointB = true →
      Delta.merge p c = .ok r → r.disjointB = true) :=
  ⟨fun prev cur d hd => compute_disj_all prev cur d hd,
   fun p c r hp _ hm =>
     (disjointB_iff r).mpr (merge_disj_pres p c r ((disjointB_iff p).mp hp) hm)⟩

/-- Witness for C4: a computed singleton-insert delta is disjoint, and a
concrete merge of an insert into an empty delta stays disjoint. -/
theorem c4_witness :
    dW4.disjointB = true ∧ rW4.disjointB = true :=
  ⟨c4_disjointness.1 none curW4 dW4 (by decide),
   c4_disjointness.2 pW4 cW4 rW4 (by decide) (by decide) rfl⟩

/-! ### Delta-compute identity -/

theorem compute_table_self (t : Table) (hn : (t.records.map Prod.fst).Nodup) :
    Delta.compute_table (some t) t = ([], [], []) := by
  simp only [Delta.compute_table]
  have hdel : t.records.foldl
      (fun ds p => if acontains t.records p.1 then ds else ainsert ds p.1 p.2) [] = [] := by
    apply foldl_inv (P := fun ds => ds = []) _ t.records ?_ [] rfl
    intro acc b hb hacc
    have hbc : acontains t.records b.1 = true := mem_alookup_isSome (v := b.2) hb
    rw [if_pos hbc]
    exact hacc
  have hiu : t.records.foldl
      (fun acc p =>
        match alookup t.records p.1 with
        | none => (ainsert acc.1 p.1 p.2, acc.2)
        | some previous_value =>
          if previous_value ≠ p.2 then (acc.1, ainsert acc.2 p.1 (previous_value, p.2))
          else acc)
      ([], []) = ([], []) := by
    apply foldl_inv (P := fun acc => acc = ([], [])) _ t.records ?_ ([], []) rfl
    intro acc b hb hacc
    have hlk : alookup t.records b.1 = some b.2 := alookup_of_mem_nodup hn hb
    rw [hlk]
    dsimp only
    rw [if_neg (by simp)]
    exact hacc
  rw [hdel, hiu]

/-- **C9.** Delta-compute identity: computing the delta of a state against
itself yields the empty list (the nodup hypotheses reflect the key
uniqueness of the `HashMap`s the Rust code iterates). -/
theorem c9_compute_identity (S : State)
    (h1 : (S.tables.map Prod.fst).Nodup)
    (h2 : ∀ p ∈ S.tables, (p.2.records.map Prod.fst).Nodup) :
    Delta.compute (some S) S = [] := by
  simp only [Delta.compute]
  rw [List.append_eq_nil]
  constructor
  · rw [List.filterMap_eq_nil_iff]
    intro p hp
    have hlk : alookup S.tables p.1 = some p.2 := alookup_of_mem_nodup h1 hp
    simp only [Option.bind, hlk]
    rw [compute_table_self p.2 (h2 p hp)]
    rfl
  · rw [List.filterMap_eq_nil_iff]
    intro p hp
    by_cases hr : p.2.records = []
    · rw [if_pos hr]
    · rw [if_neg hr]
      have hc : acontains S.tables p.1 = true := mem_alookup_isSome (v := p.2) hp
      rw [if_pos hc]

/-- Witness for C9 on a concrete two-table state. -/
theorem c9_witness : Delta.compute (some stateW9) stateW9 = [] :=
  c9_compute_identity stateW9 (by decide) (by decide)

/-! ### Patch creation: fallback and payload selection -/

/-- Counterexample to **C5** as stated: `last_known` = "aa" resolves to an
on-disk orphan block, the chain walk from HEAD ends at GENESIS without
reaching it, and — a persisted State being present — `Patch::create`
returns the full-state fallback patch instead of failing with an
UnknownRef-style error. -/
theorem c5_counterexample :
    consolidate storeC5.blocks blockB "aa" 10 = .error (.refNotInChain "aa")
    ∧ Patch.create enc0 storeC5 "aa" 10 =
        .ok { head_hash := hashB, head_created := none, num_blocks := 0
              payload := some (.state stateC5) } :=
  ⟨rfl, rfl⟩

/-- **C5 (amended).** `Patch::create` converts *every* consolidation
failure — not only NotFound/Corrupt — into the full-state fallback
(`num_blocks = 0`, no `head_created`) when a persisted State exists, and
surfaces an error only when no State is available; in particular a chain
walk that ends at GENESIS without reaching `last_known` takes the same
fallback path instead of failing with UnknownRef. -/
theorem c5_fallback_on_any_error (enc : EncLen) (store : Store) (last_known : String)
    (fuel : Nat) (e : PErr) (h : String)
    (hres : resolveRef store.blocks last_known = .ok h)
    (hhead : headLoad store.headFile ≠ GENESIS_HASH)
    (herr : tryConsolidate enc store (headLoad store.headFile) last_known fuel = .error e) :
    Patch.create enc store last_known fuel =
      match store.state with
      | some s => .ok { head_hash := headLoad store.headFile, head_created := none
                        num_blocks := 0, payload := some (.state s) }
      | none => .error .noStateFallback := by
  simp only [Patch.create, hres]
  rw [if_neg hhead]
  rw [herr]

/-- Witness for the amended C5 at the orphan-ref store. -/
theorem c5_witness :
    Patch.create enc0 storeC5 "aa" 10 =
      match storeC5.state with
      | some s => .ok { head_hash := headLoad storeC5.headFile, head_created := none
                        num_blocks := 0, payload := some (.state s) }
      | none => .error .noStateFallback :=
  c5_fallback_on_any_error enc0 storeC5 "aa" 10 (.refNotInChain "aa") hashOrph
    rfl (by decide) rfl

/-- **C7.** Payload selection: when consolidation succeeds and a persisted
State exists, `Patch::create` compares the encoded (pre-compression) byte
lengths of the full-state payload and of the merged (stripped) deltas
payload and emits the smaller one (deltas on a tie); with no persisted
State the deltas payload is emitted. -/
theorem c7_payload_selection (enc : EncLen) (store : Store) (last_known : String)
    (fuel : Nat) (h : String) (b : Block) (nb : Nat) (ds : List PDelta)
    (hres : resolveRef store.blocks last_known = .ok h)
    (hhead : headLoad store.headFile ≠ GENESIS_HASH)
    (hload : blockLoad store.blocks (headLoad store.headFile) = .ok b)
    (hpre : strStartsWith (headLoad store.headFile) last_known = false)
    (hcons : consolidate store.blocks b last_known fuel = .ok (nb, ds)) :
    Patch.create enc store last_known fuel =
      .ok { head_hash := headLoad store.headFile
            head_created := b.created
            num_blocks := nb
            payload := some (match store.state with
              | some s =>
                if enc.stateLen s < enc.deltasLen (stripDeltas ds) then Payload.state s
                else Payload.deltas (stripDeltas ds)
              | none => Payload.deltas (stripDeltas ds)) } := by
  have htry : tryConsolidate enc store (headLoad store.headFile) last_known fuel =
      .ok (b.created, nb, some (match store.state with
        | some s =>
          if enc.stateLen s < enc.deltasLen (stripDeltas ds) then Payload.state s
          else Payload.deltas (stripDeltas ds)
        | none => Payload.deltas (stripDeltas ds))) := by
    simp only [tryConsolidate, hload, hpre, hcons]
    rfl
  simp only [Patch.create, hres]
  rw [if_neg hhead]
  rw [htry]

/-- Witness for C7: one-block consolidation with a persisted State whose
encoded length is smaller, so the State payload is selected. -/
theorem c7_witness :
    Patch.create encSmallState storeC7 GENESIS_HASH 10 =
      .ok { head_hash := headLoad storeC7.headFile
            head_created := blockC7.created
            num_blocks := 1
            payload := some (match storeC7.state with
              | some s =>
                if encSmallState.stateLen s
                    < encSmallState.deltasLen (stripDeltas [deltaC6]) then Payload.state s
                else Payload.deltas (stripDeltas [deltaC6])
              | none => Payload.deltas (stripDeltas [deltaC6])) } :=
  c7_payload_selection encSmallState storeC7 GENESIS_HASH 10 GENESIS_HASH blockC7 1 [deltaC6]
    rfl (by decide) rfl rfl rfl

/-- **C10.** Absent HEAD blob: `head::load` returns the GENESIS sentinel,
so a fresh work directory behaves as if the tip were GENESIS —
`Block::create` builds a genesis-parented block and `Patch::create` emits
the Empty patch. -/
theorem c10_fresh_workdir :
    headLoad none = GENESIS_HASH
    ∧ (∀ (prev : Option State) (cur : State) (created : Option Int),
        (blockCreateCore prev cur none created).parent = GENESIS_HASH)
    ∧ (∀ (enc : EncLen) (store : Store) (last_known : String) (fuel : Nat) (h : String),
        store.headFile = none → resolveRef store.blocks last_known = .ok h →
        Patch.create enc store last_known fuel =
          .ok { head_hash := GENESIS_HASH, head_created := none, num_blocks := 0
                payload := none }) := by
  refine ⟨rfl, fun _ _ _ => rfl, ?_⟩
  intro enc store lk fuel h hhf hres
  simp only [Patch.create, hres, hhf]
  rfl

/-- Witness for C10 on an empty store with the GENESIS ref. -/
theorem c10_witness :
    Patch.create enc0 storeC10 GENESIS_HASH 5 =
      .ok { head_hash := GENESIS_HASH, head_created := none, num_blocks := 0
            payload := none } :=
  c10_fresh_workdir.2.2 enc0 storeC10 GENESIS_HASH 5 GENESIS_HASH rfl rfl

/-! ### Sparse encoding of patch updates -/

theorem sparsify_shift : ∀ (os ns : Val) (i : Nat),
    (sparsify i os ns).1 = (sparsify 0 os ns).1.map (· + i)
    ∧ (sparsify i os ns).2 = (sparsify 0 os ns).2
  | [], ns, i => by simp [sparsify]
  | o :: os, [], i => by simp [sparsify]
  | o :: os, n :: ns, i => by
    have ih1 := sparsify_shift os ns (i + 1)
    have ih0 := sparsify_shift os ns 1
    have hmm : ((sparsify 0 os ns).1.map (· + 1)).map (· + i)
        = (sparsify 0 os ns).1.map (· + (i + 1)) := by
      rw [List.map_map]
      congr 1
      funext x
      simp only [Function.comp_apply]
      omega
    simp only [sparsify, Nat.zero_add]
    by_cases hon : o ≠ n
    · rw [if_pos hon, if_pos hon]
      refine ⟨?_, ?_⟩
      · simp only [List.map_cons, ih1.1, ih0.1, hmm, Nat.zero_add]
      · simp only [ih1.2, ih0.2]
    · rw [if_neg hon, if_neg hon]
      refine ⟨?_, ?_⟩
      · simp only [ih1.1, ih0.1, hmm]
      · simp only [ih1.2, ih0.2]

theorem sparsify_cons (o n : String) (os ns : Val) :
    sparsify 0 (o :: os) (n :: ns)
      = if o ≠ n
        then (0 :: (sparsify 0 os ns).1.map (· + 1), n :: (sparsify 0 os ns).2)
        else ((sparsify 0 os ns).1.map (· + 1), (sparsify 0 os ns).2) := by
  have hsh := sparsify_shift os ns 1
  simp only [sparsify, Nat.zero_add]
  by_cases hon : o ≠ n
  · rw [if_pos hon, if_pos hon, hsh.1, hsh.2]
  · rw [if_neg hon, if_neg hon]
    rw [show sparsify 1 os ns = ((sparsify 1 os ns).1, (sparsify 1 os ns).2) from rfl,
      hsh.1, hsh.2]

theorem sparsify_mem : ∀ (os ns : Val) (j : Nat),
    j ∈ (sparsify 0 os ns).1 ↔
      (j < os.length ∧ j < ns.length ∧ os.getD j "" ≠ ns.getD j "")
  | [], ns, j => by simp [sparsify]
  | o :: os, [], j => by simp [sparsify]
  | o :: os, n :: ns, j => by
    have hmem : ∀ m : Nat,
        m + 1 ∈ (sparsify 0 os ns).1.map (· + 1) ↔ m ∈ (sparsify 0 os ns).1 := by
      intro m
      simp only [List.mem_map]
      constructor
      · rintro ⟨x, hx, hxe⟩
        have hxm : x = m := by omega
        rw [← hxm]
        exact hx
      · intro hm
        exact ⟨m, hm, rfl⟩
    have hzero : ¬ (0 : Nat) ∈ (sparsify 0 os ns).1.map (· + 1) := by
      simp only [List.mem_map]
      rintro ⟨x, _, hx⟩
      omega
    rw [sparsify_cons]
    simp only [List.length_cons]
    cases j with
    | zero =>
      simp only [List.getD_cons_zero]
      by_cases hon : o ≠ n
      · rw [if_pos hon]
        dsimp only
        constructor
        · intro _
          exact ⟨by omega, by omega, hon⟩
        · intro _
          exact List.mem_cons_self _ _
      · rw [if_neg hon]
        dsimp only
        constructor
        · intro h0
          exact absurd h0 hzero
        · rintro ⟨_, _, h3⟩
          exact absurd h3 hon
    | succ m =>
      have ihm := sparsify_mem os ns m
      simp only [List.getD_cons_succ]
      by_cases hon : o ≠ n
      · rw [if_pos hon]
        dsimp only
        rw [List.mem_cons]
        rw [hmem m, ihm]
        constructor
        · rintro (h | ⟨h1, h2, h3⟩)
          · exact absurd h (by omega)
          · exact ⟨by omega, by omega, h3⟩
        · rintro ⟨h1, h2, h3⟩
          exact Or.inr ⟨by omega, by omega, h3⟩
      · rw [if_neg hon]
        dsimp only
        rw [hmem m, ihm]
        constructor
        · rintro ⟨h1, h2, h3⟩
          exact ⟨by omega, by omega, h3⟩
        · rintro ⟨h1, h2, h3⟩
          exact ⟨by omega, by omega, h3⟩

theorem sparsify_vals : ∀ (os ns : Val),
    (sparsify 0 os ns).2 = (sparsify 0 os ns).1.map (fun i => ns.getD i "")
  | [], ns => by simp [sparsify]
  | o :: os, [] => by simp [sparsify]
  | o :: os, n :: ns => by
    have ih := sparsify_vals os ns
    have hmm : ((sparsify 0 os ns).1.map (· + 1)).map (fun i => (n :: ns).getD i "")
        = (sparsify 0 os ns).1.map (fun i => ns.getD i "") := by
      rw [List.map_map]
      congr 1
    rw [sparsify_cons]
    by_cases hon : o ≠ n
    · rw [if_pos hon]
      dsimp only
      rw [List.map_cons, List.getD_cons_zero, hmm, ih]
    · rw [if_neg hon]
      dsimp only
      rw [ih, hmm]

theorem sparsify_sorted : ∀ (os ns : Val), (sparsify 0 os ns).1.Pairwise (· < ·)
  | [], ns => by simp [sparsify]
  | o :: os, [] => by simp [sparsify]
  | o :: os, n :: ns => by
    have ih := sparsify_sorted os ns
    have hmap : ((sparsify 0 os ns).1.map (· + 1)).Pairwise (· < ·) :=
      List.Pairwise.map _ (fun a b hab => by omega) ih
    rw [sparsify_cons]
    by_cases hon : o ≠ n
    · rw [if_pos hon]
      dsimp only
      refine List.Pairwise.cons ?_ hmap
      intro x hx
      simp only [List.mem_map] at hx
      obtain ⟨y, _, hy⟩ := hx
      omega
    · rw [if_neg hon]
      dsimp only
      exact hmap

/-- Counterexample to **C6** as stated: the Deltas payload produced by
`Patch::create` for a one-update block has `changed_indices = [0]` but
`old_value = []` — the old value `"a"` at the changed position is dropped,
not sparse-encoded. -/
theorem c6_counterexample :
    Patch.create enc0 storeC6 GENESIS_HASH 10 =
      .ok { head_hash := hashC6, head_created := some 7, num_blocks := 1
            payload := some (.deltas [strippedDeltaC6]) }
    ∧ strippedDeltaC6.updates = [strippedUpdC6]
    ∧ strippedUpdC6.changed_indices = [0]
    ∧ updC6.old_value.getD 0 "" = "a"
    ∧ strippedUpdC6.old_value ≠ ["a"] :=
  ⟨rfl, rfl, rfl, rfl, by decide⟩

/-- **C6 (amended).** In the deltas stripped for a patch payload
(`try_consolidate`), every delete entry carries no subsidiary values, and
every update is sparse-encoded on the `new` side only: `changed_indices`
lists exactly (in increasing order, once each) the positions where the
merged old and new values differ, `new_value` lists exactly the new values
at those positions, and `old_value` is emptied entirely rather than
sparse-encoded. -/
theorem c6_strip (d : PDelta) :
    (∀ e, e ∈ (stripDelta d).deletes → e.value = [])
    ∧ (∀ u, u ∈ d.updates → u.old_value.length = u.new_value.length →
        (stripUpdate u).old_value = []
        ∧ (stripUpdate u).changed_indices.Pairwise (· < ·)
        ∧ (∀ j, j ∈ (stripUpdate u).changed_indices ↔
            (j < u.old_value.length ∧ u.old_value.getD j "" ≠ u.new_value.getD j ""))
        ∧ (stripUpdate u).new_value =
            (stripUpdate u).changed_indices.map (fun i => u.new_value.getD i ""))
    ∧ (stripDelta d).updates = d.updates.map stripUpdate := by
  refine ⟨?_, ?_, rfl⟩
  · intro e he
    simp only [stripDelta, List.mem_map] at he
    obtain ⟨e0, _, he0⟩ := he
    rw [← he0]
  · intro u hu hlen
    refine ⟨rfl, sparsify_sorted u.old_value u.new_value, ?_, ?_⟩
    · intro j
      rw [show (stripUpdate u).changed_indices = (sparsify 0 u.old_value u.new_value).1 from rfl]
      rw [sparsify_mem]
      constructor
      · rintro ⟨h1, _, h3⟩
        exact ⟨h1, h3⟩
      · rintro ⟨h1, h3⟩
        exact ⟨h1, by omega, h3⟩
    · exact sparsify_vals u.old_value u.new_value

/-- Witness for the amended C6 at the concrete one-column update. -/
theorem c6_witness :
    (stripUpdate updC6).old_value = []
    ∧ (stripUpdate updC6).changed_indices.Pairwise (· < ·)
    ∧ (∀ j, j ∈ (stripUpdate updC6).changed_indices ↔
        (j < updC6.old_value.length ∧ updC6.old_value.getD j "" ≠ updC6.new_value.getD j ""))
    ∧ (stripUpdate updC6).new_value =
        (stripUpdate updC6).changed_indices.map (fun i => updC6.new_value.getD i "") :=
  (c6_strip deltaC6).2.1 updC6 (by decide) (by decide)

/-! ### Truncator removal rule -/

theorem map_get?' {α β : Type} (f : α → β) : ∀ (l : List α) (i : Nat),
    (l.map f).get? i = (l.get? i).map f
  | [], _ => by simp
  | a :: l, 0 => by simp
  | a :: l, i + 1 => by simp [map_get?' f l i]

theorem enumFrom_get? {α : Type} : ∀ (l : List α) (n i : Nat),
    (l.enumFrom n).get? i = (l.get? i).map (fun a => (n + i, a))
  | [], n, i => by simp
  | a :: l, n, 0 => by simp
  | a :: l, n, i + 1 => by
    simp only [List.enumFrom, List.get?_cons_succ]
    rw [enumFrom_get? l (n + 1) i]
    congr 1
    funext x
    congr 1
    omega

theorem shouldRemove_iff (rp mb : Option Nat) (co : Option Int) (i : Nat) (e : ChainEntry) :
    shouldRemove rp mb co i e = true ↔
      ((∃ pos, rp = some pos ∧ pos < i)
        ∨ (∃ m, mb = some m ∧ m ≤ i)
        ∨ (∃ c t, co = some c ∧ e.created = some t ∧ t < c)) := by
  cases rp <;> cases mb <;> cases co <;> cases hec : e.created <;>
    simp [shouldRemove, optTest, hec, or_assoc]

/-- **C8.** Truncator removal rule: with the loadable chain listed
tip-first from HEAD, the pass removes the block at position `i` exactly
when `i ≥ 1` and (`i > reported_position` with REPORTED set and present in
the chain, or `i ≥ max_blocks` when configured, or `created` is earlier
than the max-age cutoff when configured); position 0 (HEAD) is never
removed. -/
theorem c8_truncate_rule (blocks : List (String × Block)) (head : String) (fuel : Nat)
    (reported : Option String) (maxBlocks : Option Nat) (cutoff : Option Int)
    (i : Nat) (e : ChainEntry)
    (hchain : (chainWalk blocks fuel head).get? i = some e) :
    (truncateDecisions (chainWalk blocks fuel head) reported maxBlocks cutoff).get? i
        = some (e.hash, true)
      ↔ (1 ≤ i ∧
          ((∃ h pos, reported = some h
              ∧ findPos (chainWalk blocks fuel head) h = some pos ∧ pos < i)
            ∨ (∃ m, maxBlocks = some m ∧ m ≤ i)
            ∨ (∃ c t, cutoff = some c ∧ e.created = some t ∧ t < c))) := by
  have hget : (truncateDecisions (chainWalk blocks fuel head) reported maxBlocks cutoff).get? i
      = some (e.hash,
          if i = 0 then false
          else shouldRemove
            (match reported with
             | some h => findPos (chainWalk blocks fuel head) h
             | none => none) maxBlocks cutoff i e) := by
    simp only [truncateDecisions, List.enum]
    rw [map_get?', enumFrom_get? _ 0 i, hchain]
    simp
  rw [hget]
  simp only [Option.some.injEq, Prod.mk.injEq, true_and]
  by_cases hi : i = 0
  · rw [if_pos hi]
    simp [hi]
  · rw [if_neg hi]
    rw [shouldRemove_iff]
    cases reported with
    | none =>
      simp only []
      constructor
      · rintro (⟨pos, hpos, _⟩ | h)
        · exact absurd hpos (by simp)
        · exact ⟨by omega, Or.inr h⟩
      · rintro ⟨_, (⟨h, pos, hh, _, _⟩ | h)⟩
        · exact absurd hh (by simp)
        · exact Or.inr h
    | some h0 =>
      simp only []
      constructor
      · rintro (⟨pos, hpos, hlt⟩ | h)
        · exact ⟨by omega, Or.inl ⟨h0, pos, rfl, hpos, hlt⟩⟩
        · exact ⟨by omega, Or.inr h⟩
      · rintro ⟨_, (⟨h, pos, hh, hfp, hlt⟩ | h)⟩
        · injection hh with hh
          rw [← hh] at hfp
          exact Or.inl ⟨pos, hfp, hlt⟩
        · exact Or.inr h

/-- Witness for C8: in a two-block chain with `max_blocks = 1`, the block
at position 1 is removed. -/
theorem c8_witness :
    (truncateDecisions (chainWalk blocksC8 5 hashT1) none (some 1) none).get? 1
        = some (hashT2, true)
      ↔ (1 ≤ 1 ∧
          ((∃ h pos, (none : Option String) = some h
              ∧ findPos (chainWalk blocksC8 5 hashT1) h = some pos ∧ pos < 1)
            ∨ (∃ m, (some 1 : Option Nat) = some m ∧ m ≤ 1)
            ∨ (∃ c t, (none : Option Int) = some c
                ∧ ({ hash := hashT2, created := some 50 } : ChainEntry).created = some t
                ∧ t < c))) :=
  c8_truncate_rule blocksC8 hashT1 5 none (some 1) none 1
    { hash := hashT2, created := some 50 } rfl
